import Mathlib

/-!
Verification of the quicksort benchmarking script (`main.py`).

The script defines two functional quicksort variants (`quicksort_non_random`
with the first element as pivot, `quicksort_random` with a randomly drawn
pivot index swapped to the front), debug-tracing twins of both, three input
generators (`generate_best_case`, `generate_worst_case`,
`generate_average_case`) and a benchmarking loop (`benchmark_quicksort`).

Elements are modelled as `Int` (the script sorts Python integers).  The
random draws of `random.randint` are modelled by an explicit supply of
natural numbers threaded through the recursion; a draw for a list of length
`n ≥ 2` is reduced modulo `n`, so that quantifying over all supplies covers
exactly the draws `randint(0, len(arr) - 1)` can produce.
-/

namespace HandsOn6

/-- Embedding of `quicksort_non_random` (main.py lines 13–25):
base case returns lists of length ≤ 1 unchanged; otherwise the pivot is
`arr[0]`, the remaining elements are split into `less = [x for x in arr[1:]
if x < pivot]` and `greater = [x for x in arr[1:] if x >= pivot]`, and the
result is `quicksort(less) + [pivot] + quicksort(greater)`. -/
def quicksort_non_random : List Int → List Int
  | [] => []
  | [x] => [x]
  | p :: rest =>
      quicksort_non_random (rest.filter fun x => decide (x < p)) ++
        p :: quicksort_non_random (rest.filter fun x => decide (p ≤ x))
termination_by l => l.length
decreasing_by
  · exact Nat.lt_succ_of_le (List.length_filter_le _ _)
  · exact Nat.lt_succ_of_le (List.length_filter_le _ _)

/-- Embedding of the simultaneous assignment
`arr[0], arr[pivot_index] = arr[pivot_index], arr[0]` (main.py line 37):
both right-hand sides are read from the original list, then position `0`
receives the old `arr[i]` and position `i` the old `arr[0]`. -/
def swapFirst (l : List Int) (i : Nat) : List Int :=
  (l.set 0 (l.getD i 0)).set i (l.getD 0 0)

/-- Embedding of `quicksort_random` (main.py lines 27–43).  The successive
results of `random.randint(0, len(arr) - 1)` are supplied as an explicit list
of naturals `ks`, consumed left to right (one draw per call on a list of
length ≥ 2, exactly as the source draws once per such call); a draw is
reduced modulo the current length, so every in-range index is representable.
The drawn index is swapped with position 0, the pivot is the new first
element, and partitioning proceeds as in `quicksort_non_random`.  The
function returns the sorted list together with the unconsumed draws. -/
def quicksort_random (arr : List Int) (ks : List Nat) : List Int × List Nat :=
  if _h : arr.length ≤ 1 then (arr, ks)
  else
    let arr2 := swapFirst arr (ks.headD 0 % arr.length)
    let p := arr2.headD 0
    let sl := quicksort_random (arr2.tail.filter fun x => decide (x < p)) ks.tail
    let sg := quicksort_random (arr2.tail.filter fun x => decide (p ≤ x)) sl.2
    (sl.1 ++ p :: sg.1, sg.2)
termination_by arr.length
decreasing_by
  · refine lt_of_le_of_lt (List.length_filter_le _ _) ?_
    simp only [swapFirst, List.length_tail, List.length_set]
    omega
  · refine lt_of_le_of_lt (List.length_filter_le _ _) ?_
    simp only [swapFirst, List.length_tail, List.length_set]
    omega

/-- The recursion frames of `quicksort_non_random`, as narrated by
`quicksort_non_random_debug` (main.py lines 49–65): for every recursive call
that partitions (length ≥ 2) one frame `(pivot, less, greater)` is emitted,
in pre-order (the frame of a call precedes the frames of its children, the
`less` subtree before the `greater` subtree).  Base cases emit no frame. -/
def nrPartitions : List Int → List (Int × List Int × List Int)
  | [] => []
  | [_] => []
  | p :: rest =>
      (p, rest.filter fun x => decide (x < p), rest.filter fun x => decide (p ≤ x)) ::
        (nrPartitions (rest.filter fun x => decide (x < p)) ++
          nrPartitions (rest.filter fun x => decide (p ≤ x)))
termination_by l => l.length
decreasing_by
  · exact Nat.lt_succ_of_le (List.length_filter_le _ _)
  · exact Nat.lt_succ_of_le (List.length_filter_le _ _)

/-- Embedding of `generate_best_case` (main.py lines 91–101): lists of length
≤ 1 are returned unchanged; otherwise `mid = len(arr) // 2`, and the result
is `[arr[mid]] + generate_best_case(arr[:mid]) + generate_best_case(arr[mid+1:])`. -/
def generate_best_case (arr : List Int) : List Int :=
  if _h : arr.length ≤ 1 then arr
  else
    arr.getD (arr.length / 2) 0 ::
      (generate_best_case (arr.take (arr.length / 2)) ++
        generate_best_case (arr.drop (arr.length / 2 + 1)))
termination_by arr.length
decreasing_by
  · refine lt_of_le_of_lt
      (le_trans (Nat.le_of_eq (List.length_take _ _)) (Nat.min_le_left _ _)) ?_
    omega
  · rw [List.length_drop]
    omega

/-- Embedding of `generate_worst_case` (main.py lines 103–108):
`list(range(n))`, the ascending list `[0, 1, ..., n-1]`. -/
def generate_worst_case (n : Nat) : List Int :=
  (List.range n).map Int.ofNat

/-- One benchmark trial (main.py lines 138–141), against an abstract
monotone clock (a rational number of elapsed seconds).  The trial first
runs `arr = input_generator(n)`, advancing the clock by the generation cost
`g`; then reads `start = time.time()`; then runs `sort_func(arr)`, advancing
the clock by the sort cost `s`; finally measures `time.time() - start`.
Returns the clock after the trial and the measured duration. -/
def trial_step (clock g s : ℚ) : ℚ × ℚ :=
  let afterGen := clock + g
  let start := afterGen
  let afterSort := afterGen + s
  (afterSort, afterSort - start)

/-- Embedding of `benchmark_quicksort` (main.py lines 121–143) over the
abstract clock.  `genCost n t` and `sortCost n t` are the clock advances of
generating, respectively sorting, the fresh input built for trial `t` at
size `n` (a fresh generator call happens inside the trial loop, so the cost
is indexed by the trial).  For every size, in order, `trials` trials are run
accumulating `total_time`, and `total_time / trials` is appended to the
result list.  Returns the final clock and the list of averages. -/
def benchmark_quicksort (genCost sortCost : Nat → Nat → ℚ) (sizes : List Nat)
    (trials : Nat) : ℚ × List ℚ :=
  sizes.foldl
    (fun acc n =>
      let res := (List.range trials).foldl
        (fun st t =>
          let step := trial_step st.1 (genCost n t) (sortCost n t)
          (step.1, st.2 + step.2))
        (acc.1, 0)
      (res.1, acc.2 ++ [res.2 / (trials : ℚ)]))
    (0, [])

/-- The caller's list after `quicksort_non_random` returns: the function only
reads `arr` (indexing, slicing, comprehensions) and never assigns into it,
so the caller's list is untouched. -/
def quicksort_non_random_post (arr : List Int) : List Int := arr

/-- The caller's list after `quicksort_random arr ks` returns.  The only
statement of the source that mutates `arr` is the swap at main.py line 37,
executed once per call when `len(arr) > 1`; the recursive calls receive
freshly built `less`/`greater` lists, so only the top-level call's swap is
visible to the caller. -/
def quicksort_random_post (arr : List Int) (ks : List Nat) : List Int :=
  if arr.length ≤ 1 then arr else swapFirst arr (ks.headD 0 % arr.length)

/-! ### Helper lemmas -/

/-- The two partition filters of one quicksort step split the remaining
elements completely: together they are a permutation of the input. -/
theorem filter_lt_ge_perm (p : Int) (l : List Int) :
    ((l.filter fun x => decide (x < p)) ++ l.filter fun x => decide (p ≤ x)).Perm l := by
  have h : (l.filter fun x => decide (p ≤ x)) = l.filter fun x => !decide (x < p) := by
    refine List.filter_congr ?_
    intro x _
    by_cases hx : x < p
    · simp [hx, not_le_of_lt hx]
    · simp [hx, le_of_not_lt hx]
  rw [h]
  exact List.filter_append_perm _ l

theorem getD_cons_set_perm :
    ∀ (t : List Int) (j : Nat) (a : Int), j < t.length →
      (t.getD j 0 :: t.set j a).Perm (a :: t)
  | b :: t, 0, a, _ => by
      simpa using List.Perm.swap a b t
  | b :: t, j + 1, a, h => by
      have ih := getD_cons_set_perm t j a (by simpa using h)
      simp only [List.getD_cons_succ, List.set_cons_succ]
      exact ((List.Perm.swap b (t.getD j 0) (t.set j a)).trans (ih.cons b)).trans
        (List.Perm.swap a b t)

theorem swapFirst_length (l : List Int) (i : Nat) : (swapFirst l i).length = l.length := by
  simp [swapFirst]

/-- Swapping positions `0` and `i` (with `i` in range) permutes the list. -/
theorem swapFirst_perm (l : List Int) (i : Nat) (h : i < l.length) :
    (swapFirst l i).Perm l := by
  cases l with
  | nil => simp at h
  | cons a t =>
    cases i with
    | zero =>
        simp only [swapFirst, List.getD_cons_zero, List.set_cons_zero]
        exact List.Perm.refl _
    | succ j =>
        have hj : j < t.length := by simpa using h
        simp only [swapFirst, List.getD_cons_succ, List.getD_cons_zero, List.set_cons_zero,
          List.set_cons_succ]
        exact getD_cons_set_perm t j a hj

/-- Combining sorted results of the two partitions around the pivot yields a
sorted permutation of the original `pivot :: rest`. -/
theorem combine_sorted_perm {p : Int} {rest sl sg : List Int}
    (hslp : sl.Perm (rest.filter fun x => decide (x < p)))
    (hsgp : sg.Perm (rest.filter fun x => decide (p ≤ x)))
    (hsls : List.Sorted (· ≤ ·) sl) (hsgs : List.Sorted (· ≤ ·) sg) :
    (sl ++ p :: sg).Perm (p :: rest) ∧ List.Sorted (· ≤ ·) (sl ++ p :: sg) := by
  have hmemsl : ∀ x ∈ sl, x < p := by
    intro x hx
    have hx2 := hslp.mem_iff.mp hx
    simpa using (List.mem_filter.mp hx2).2
  have hmemsg : ∀ x ∈ sg, p ≤ x := by
    intro x hx
    have hx2 := hsgp.mem_iff.mp hx
    simpa using (List.mem_filter.mp hx2).2
  constructor
  · exact ((hslp.append (hsgp.cons p)).trans List.perm_middle).trans
      ((filter_lt_ge_perm p rest).cons p)
  · refine List.pairwise_append.mpr ⟨hsls, List.sorted_cons.mpr ⟨hmemsg, hsgs⟩, ?_⟩
    intro x hx y hy
    rcases List.mem_cons.mp hy with rfl | hy'
    · exact le_of_lt (hmemsl x hx)
    · exact le_of_lt (lt_of_lt_of_le (hmemsl x hx) (hmemsg y hy'))

/-- `quicksort_non_random` returns a sorted permutation of its input. -/
theorem quicksort_nr_perm_sorted (l : List Int) :
    (quicksort_non_random l).Perm l ∧ List.Sorted (· ≤ ·) (quicksort_non_random l) := by
  induction l using quicksort_non_random.induct with
  | case1 =>
      rw [quicksort_non_random.eq_1]
      exact ⟨List.Perm.refl _, List.sorted_nil⟩
  | case2 x =>
      rw [quicksort_non_random.eq_2]
      exact ⟨List.Perm.refl _, List.sorted_singleton x⟩
  | case3 p rest hne ih1 ih2 =>
      rw [quicksort_non_random.eq_3 p rest hne]
      exact combine_sorted_perm ih1.1 ih2.1 ih1.2 ih2.2

theorem quicksort_random_base (arr : List Int) (ks : List Nat) (h : arr.length ≤ 1) :
    quicksort_random arr ks = (arr, ks) := by
  rw [quicksort_random]
  exact dif_pos h

theorem quicksort_random_step (arr : List Int) (ks : List Nat) (h : ¬ arr.length ≤ 1) :
    quicksort_random arr ks =
      (let arr2 := swapFirst arr (ks.headD 0 % arr.length)
       let p := arr2.headD 0
       let sl := quicksort_random (arr2.tail.filter fun x => decide (x < p)) ks.tail
       let sg := quicksort_random (arr2.tail.filter fun x => decide (p ≤ x)) sl.2
       (sl.1 ++ p :: sg.1, sg.2)) := by
  rw [quicksort_random]
  exact dif_neg h

/-- `quicksort_random` returns a sorted permutation of its input, for every
supply of pivot draws. -/
theorem quicksort_r_perm_sorted :
    ∀ (n : Nat) (l : List Int), l.length ≤ n → ∀ ks : List Nat,
      ((quicksort_random l ks).1).Perm l ∧ List.Sorted (· ≤ ·) (quicksort_random l ks).1 := by
  intro n
  induction n with
  | zero =>
      intro l hl ks
      have h0 : l = [] := List.length_eq_zero.mp (Nat.le_zero.mp hl)
      subst h0
      rw [quicksort_random_base [] ks (by simp)]
      exact ⟨List.Perm.refl _, List.sorted_nil⟩
  | succ n ih =>
      intro l hl ks
      by_cases h1 : l.length ≤ 1
      · rw [quicksort_random_base l ks h1]
        refine ⟨List.Perm.refl _, ?_⟩
        match l, h1 with
        | [], _ => exact List.sorted_nil
        | [x], _ => exact List.sorted_singleton x
      · rw [quicksort_random_step l ks h1]
        have hi : ks.headD 0 % l.length < l.length := Nat.mod_lt _ (by omega)
        have hperm2 : (swapFirst l (ks.headD 0 % l.length)).Perm l :=
          swapFirst_perm l _ hi
        obtain ⟨q, rest, harr2⟩ :
            ∃ q rest, swapFirst l (ks.headD 0 % l.length) = q :: rest := by
          cases hsw : swapFirst l (ks.headD 0 % l.length) with
          | nil =>
              exfalso
              have hlen := swapFirst_length l (ks.headD 0 % l.length)
              rw [hsw] at hlen
              simp at hlen
              omega
          | cons q rest => exact ⟨q, rest, rfl⟩
        simp only [harr2, List.headD_cons, List.tail_cons]
        have hrest_len : rest.length ≤ n := by
          have hlen := swapFirst_length l (ks.headD 0 % l.length)
          rw [harr2] at hlen
          simp only [List.length_cons] at hlen
          omega
        have s1 := ih (rest.filter fun x => decide (x < q))
          (le_trans (List.length_filter_le _ _) hrest_len) ks.tail
        have s2 := ih (rest.filter fun x => decide (q ≤ x))
          (le_trans (List.length_filter_le _ _) hrest_len)
          (quicksort_random (rest.filter fun x => decide (x < q)) ks.tail).2
        have hcomb := combine_sorted_perm s1.1 s2.1 s1.2 s2.2
        have hql : (q :: rest).Perm l := by
          rw [← harr2]
          exact hperm2
        exact ⟨hcomb.1.trans hql, hcomb.2⟩

/-! ### Claim theorems -/

/-- C1: for every input list and both pivot policies (`quicksort_non_random`,
and `quicksort_random` under every supply of pivot draws), the returned list
is a permutation of the input (same multiset, hence same length) and is
sorted non-decreasing. -/
theorem quicksort_output_sorted_perm (l : List Int) :
    (quicksort_non_random l).Perm l ∧
    (quicksort_non_random l).length = l.length ∧
    List.Sorted (· ≤ ·) (quicksort_non_random l) ∧
    ∀ ks : List Nat,
      ((quicksort_random l ks).1).Perm l ∧
      ((quicksort_random l ks).1).length = l.length ∧
      List.Sorted (· ≤ ·) (quicksort_random l ks).1 := by
  obtain ⟨h1, h2⟩ := quicksort_nr_perm_sorted l
  refine ⟨h1, h1.length_eq, h2, fun ks => ?_⟩
  obtain ⟨h3, h4⟩ := quicksort_r_perm_sorted l.length l le_rfl ks
  exact ⟨h3, h3.length_eq, h4⟩

/-- C6: sequences of length 0 or 1 are fixed points of both sorters: the base
case returns the input sequence itself (and `quicksort_random` consumes no
draw there). -/
theorem quicksort_fixed_points :
    quicksort_non_random [] = [] ∧
    (∀ x : Int, quicksort_non_random [x] = [x]) ∧
    (∀ ks : List Nat, quicksort_random [] ks = ([], ks)) ∧
    (∀ (x : Int) (ks : List Nat), quicksort_random [x] ks = ([x], ks)) :=
  ⟨quicksort_non_random.eq_1, fun x => quicksort_non_random.eq_2 x,
   fun ks => quicksort_random_base _ _ (by simp),
   fun x ks => quicksort_random_base _ _ (by simp)⟩

/-- C7: both sorters are idempotent: sorting an already-sorted output again
(under any supplies of pivot draws) returns it unchanged. -/
theorem quicksort_idempotent (l : List Int) :
    quicksort_non_random (quicksort_non_random l) = quicksort_non_random l ∧
    ∀ ks ks' : List Nat,
      (quicksort_random (quicksort_random l ks).1 ks').1 = (quicksort_random l ks).1 := by
  constructor
  · obtain ⟨hp, hs⟩ := quicksort_nr_perm_sorted (quicksort_non_random l)
    exact List.eq_of_perm_of_sorted hp hs (quicksort_nr_perm_sorted l).2
  · intro ks ks'
    obtain ⟨hp, hs⟩ := quicksort_r_perm_sorted (quicksort_random l ks).1.length _ le_rfl ks'
    exact List.eq_of_perm_of_sorted hp hs (quicksort_r_perm_sorted l.length l le_rfl ks).2

/-- C5: in every recursive step of both sorters the non-pivot elements are
split, keeping their relative order (each part is a sublist of the rest),
into `less` (strictly below the pivot) and `greaterOrEqual` (at least the
pivot, so ties go entirely to this side); together the parts carry every
remaining element, and the result is `sortedLess ++ pivot :: sortedGE`.  For
`quicksort_random` the pivot is the head of the list after the draw is
swapped to the front. -/
theorem partition_semantics (p : Int) (rest : List Int) (hne : rest ≠ []) :
    (quicksort_non_random (p :: rest) =
      quicksort_non_random (rest.filter fun x => decide (x < p)) ++
        p :: quicksort_non_random (rest.filter fun x => decide (p ≤ x))) ∧
    (rest.filter fun x => decide (x < p)).Sublist rest ∧
    (rest.filter fun x => decide (p ≤ x)).Sublist rest ∧
    (∀ x : Int, x ∈ rest.filter (fun x => decide (x < p)) ↔ x ∈ rest ∧ x < p) ∧
    (∀ x : Int, x ∈ rest.filter (fun x => decide (p ≤ x)) ↔ x ∈ rest ∧ p ≤ x) ∧
    (∀ x ∈ rest, x = p → x ∈ rest.filter fun x => decide (p ≤ x)) ∧
    ((rest.filter fun x => decide (x < p)) ++ rest.filter fun x => decide (p ≤ x)).Perm rest ∧
    (∀ ks : List Nat,
      quicksort_random (p :: rest) ks =
        (let arr2 := swapFirst (p :: rest) (ks.headD 0 % (p :: rest).length)
         let q := arr2.headD 0
         let sl := quicksort_random (arr2.tail.filter fun x => decide (x < q)) ks.tail
         let sg := quicksort_random (arr2.tail.filter fun x => decide (q ≤ x)) sl.2
         (sl.1 ++ q :: sg.1, sg.2))) := by
  refine ⟨quicksort_non_random.eq_3 p rest (fun h => hne h),
    List.filter_sublist rest, List.filter_sublist rest, ?_, ?_, ?_,
    filter_lt_ge_perm p rest, ?_⟩
  · intro x
    simp [List.mem_filter]
  · intro x
    simp [List.mem_filter]
  · intro x hx hxp
    subst hxp
    simp [List.mem_filter, hx]
  · intro ks
    refine quicksort_random_step (p :: rest) ks ?_
    cases rest with
    | nil => exact absurd rfl hne
    | cons r rs => simp

/-- C10: both sorters terminate on every finite input because each recursive
call receives a strictly shorter list: both partition filters act on the
elements after the pivot position, so their lengths are at most
`len(arr) - 1 < len(arr)`; the shown unfolding equations are exactly the
recursive calls performed. -/
theorem quicksort_termination_measure (p : Int) (rest : List Int) :
    (rest.filter fun x => decide (x < p)).length < (p :: rest).length ∧
    (rest.filter fun x => decide (p ≤ x)).length < (p :: rest).length ∧
    (∀ ks : List Nat,
      ((swapFirst (p :: rest) (ks.headD 0 % (p :: rest).length)).tail.filter
          fun x => decide (x < (swapFirst (p :: rest)
            (ks.headD 0 % (p :: rest).length)).headD 0)).length < (p :: rest).length ∧
      ((swapFirst (p :: rest) (ks.headD 0 % (p :: rest).length)).tail.filter
          fun x => decide ((swapFirst (p :: rest)
            (ks.headD 0 % (p :: rest).length)).headD 0 ≤ x)).length < (p :: rest).length) ∧
    (rest ≠ [] →
      quicksort_non_random (p :: rest) =
        quicksort_non_random (rest.filter fun x => decide (x < p)) ++
          p :: quicksort_non_random (rest.filter fun x => decide (p ≤ x))) ∧
    (∀ ks : List Nat, rest ≠ [] →
      quicksort_random (p :: rest) ks =
        (let arr2 := swapFirst (p :: rest) (ks.headD 0 % (p :: rest).length)
         let q := arr2.headD 0
         let sl := quicksort_random (arr2.tail.filter fun x => decide (x < q)) ks.tail
         let sg := quicksort_random (arr2.tail.filter fun x => decide (q ≤ x)) sl.2
         (sl.1 ++ q :: sg.1, sg.2))) := by
  have htail : ∀ ks : List Nat,
      (swapFirst (p :: rest) (ks.headD 0 % (p :: rest).length)).tail.length = rest.length := by
    intro ks
    have hlen := swapFirst_length (p :: rest) (ks.headD 0 % (p :: rest).length)
    rw [List.length_tail, hlen]
    simp
  refine ⟨?_, ?_, fun ks => ⟨?_, ?_⟩, ?_, ?_⟩
  · exact Nat.lt_succ_of_le (List.length_filter_le _ _)
  · exact Nat.lt_succ_of_le (List.length_filter_le _ _)
  · refine lt_of_le_of_lt (le_trans (List.length_filter_le _ _) (le_of_eq (htail ks))) ?_
    simp
  · refine lt_of_le_of_lt (le_trans (List.length_filter_le _ _) (le_of_eq (htail ks))) ?_
    simp
  · intro hne
    exact quicksort_non_random.eq_3 p rest (fun h => hne h)
  · intro ks hne
    refine quicksort_random_step (p :: rest) ks ?_
    cases rest with
    | nil => exact absurd rfl hne
    | cons r rs => simp

/-- On a strictly increasing list every recursion frame of the
first-element-pivot sorter has an empty `less` side, and the recursion is a
chain of length `len - 1` (one frame per level). -/
theorem nrPartitions_sorted_chain (l : List Int) (hl : List.Pairwise (· < ·) l) :
    (∀ f ∈ nrPartitions l, f.2.1 = []) ∧ (nrPartitions l).length = l.length - 1 := by
  induction l with
  | nil =>
      rw [nrPartitions.eq_1]
      simp
  | cons p rest ih =>
      cases rest with
      | nil =>
          rw [nrPartitions.eq_2]
          simp
      | cons r rs =>
          have hpl : ∀ x ∈ r :: rs, p < x := (List.pairwise_cons.mp hl).1
          have hless : ((r :: rs).filter fun x => decide (x < p)) = [] := by
            rw [List.filter_eq_nil_iff]
            intro x hx
            simpa using not_lt_of_gt (hpl x hx)
          have hge : ((r :: rs).filter fun x => decide (p ≤ x)) = r :: rs := by
            rw [List.filter_eq_self]
            intro x hx
            simpa using le_of_lt (hpl x hx)
          obtain ⟨ihf, ihlen⟩ := ih (List.pairwise_cons.mp hl).2
          rw [nrPartitions.eq_3 p (r :: rs) (by simp), hless, hge, nrPartitions.eq_1,
            List.nil_append]
          constructor
          · intro f hf
            rcases List.mem_cons.mp hf with rfl | hf'
            · rfl
            · exact ihf f hf'
          · simp only [List.length_cons, ihlen]
            simp

theorem generate_worst_case_pairwise (n : Nat) :
    List.Pairwise (· < ·) (generate_worst_case n) := by
  show List.Pairwise (· < ·) ((List.range n).map Int.ofNat)
  refine List.Pairwise.map _ ?_ (List.pairwise_lt_range n)
  intro a b h
  exact Int.ofNat_lt.mpr h

/-- C2: `generate_worst_case n` is the ascending list `[0, ..., n-1]`; the
top-level `quicksort_non_random` partition of it has an empty `less` side and
a `greaterOrEqual` side of length `n - 1`, and this maximal imbalance holds
at every level of the recursion: every frame's `less` side is empty, and the
recursion degenerates to a chain of `n - 1` partitioning levels. -/
theorem worst_case_ascending_imbalance (n : Nat) (hn : 1 ≤ n) :
    generate_worst_case n = (List.range n).map Int.ofNat ∧
    (∃ rest : List Int,
      generate_worst_case n = 0 :: rest ∧
      rest.length = n - 1 ∧
      (rest.filter fun x => decide (x < (0 : Int))) = [] ∧
      (rest.filter fun x => decide ((0 : Int) ≤ x)) = rest) ∧
    (∀ f ∈ nrPartitions (generate_worst_case n), f.2.1 = []) ∧
    (nrPartitions (generate_worst_case n)).length = n - 1 := by
  obtain ⟨m, rfl⟩ : ∃ m, n = m + 1 := ⟨n - 1, by omega⟩
  have hlen : (generate_worst_case (m + 1)).length = m + 1 := by
    show ((List.range (m + 1)).map Int.ofNat).length = m + 1
    rw [List.length_map, List.length_range]
  obtain ⟨hframes, hchain⟩ :=
    nrPartitions_sorted_chain _ (generate_worst_case_pairwise (m + 1))
  refine ⟨rfl, ?_, hframes, by rw [hchain, hlen]⟩
  have hdecomp : generate_worst_case (m + 1) =
      0 :: (List.range m).map (fun i => Int.ofNat (i + 1)) := by
    show ((List.range (m + 1)).map Int.ofNat) = _
    rw [List.range_succ_eq_map, List.map_cons, List.map_map]
    rfl
  refine ⟨(List.range m).map (fun i => Int.ofNat (i + 1)), hdecomp, by simp, ?_, ?_⟩
  · rw [List.filter_eq_nil_iff]
    intro x hx
    obtain ⟨i, _, rfl⟩ := List.mem_map.mp hx
    simp
    positivity
  · rw [List.filter_eq_self]
    intro x hx
    obtain ⟨i, _, rfl⟩ := List.mem_map.mp hx
    simp
    positivity

/-- C3: `generate_best_case` returns sequences of length ≤ 1 unchanged; on a
sequence of length ≥ 2 it takes the element at index `length / 2` of the
current slice (floor division), places it first, and recurses on the
elements before the median (`take (length / 2)`) and after it
(`drop (length / 2 + 1)`), concatenating `median :: (left ++ right)`. -/
theorem best_case_median_first (arr : List Int) :
    (arr.length ≤ 1 → generate_best_case arr = arr) ∧
    (2 ≤ arr.length →
      generate_best_case arr =
        arr.getD (arr.length / 2) 0 ::
          (generate_best_case (arr.take (arr.length / 2)) ++
            generate_best_case (arr.drop (arr.length / 2 + 1)))) := by
  constructor
  · intro h
    rw [generate_best_case]
    exact dif_pos h
  · intro h
    rw [generate_best_case]
    exact dif_neg (by omega)

/-- C4, counterexample: the spec's literal scenario
`bestCase([0,1,2,3,4]) == [2,0,1,3,4]` does not hold for the code: a slice of
length 2 selects index `2 // 2 = 1`, not index 0, so the left subrange
`[0,1]` contributes `[1,0]` and the right subrange `[3,4]` contributes
`[4,3]`. -/
theorem best_case_literal_counterexample :
    generate_best_case [0, 1, 2, 3, 4] ≠ [2, 0, 1, 3, 4] := by
  simp +decide [generate_best_case]

/-- C4, amended: `generate_best_case [0,1,2,3,4] = [2,1,0,4,3]`: the root
picks index 2 (value 2); the left subrange `[0,1]` picks index `2 // 2 = 1`
(value 1), and the right subrange `[3,4]` picks index 1 (value 4). -/
theorem best_case_literal :
    generate_best_case [0, 1, 2, 3, 4] = [2, 1, 0, 4, 3] := by
  simp +decide [generate_best_case]

/-- C9: `quicksort_non_random` leaves the caller's list untouched, and
`quicksort_random` changes it only by the single top-level transposition of
index 0 with the drawn pivot index (lists of length ≤ 1 are untouched); in
all cases the caller's list still holds the same multiset of elements. -/
theorem quicksort_frame (arr : List Int) (ks : List Nat) :
    quicksort_non_random_post arr = arr ∧
    (arr.length ≤ 1 → quicksort_random_post arr ks = arr) ∧
    (¬ arr.length ≤ 1 →
      quicksort_random_post arr ks = swapFirst arr (ks.headD 0 % arr.length)) ∧
    (quicksort_random_post arr ks).Perm arr := by
  refine ⟨rfl, fun h => if_pos h, fun h => if_neg h, ?_⟩
  by_cases h : arr.length ≤ 1
  · rw [show quicksort_random_post arr ks = arr from if_pos h]
  · rw [show quicksort_random_post arr ks = swapFirst arr (ks.headD 0 % arr.length)
      from if_neg h]
    exact swapFirst_perm _ _ (Nat.mod_lt _ (by omega))

theorem trial_fold (genCost sortCost : Nat → Nat → ℚ) (n : Nat) :
    ∀ (ts : List Nat) (c t0 : ℚ),
      ts.foldl (fun st t =>
          let step := trial_step st.1 (genCost n t) (sortCost n t)
          (step.1, st.2 + step.2)) (c, t0) =
        (c + (ts.map fun t => genCost n t + sortCost n t).sum,
         t0 + (ts.map fun t => sortCost n t).sum) := by
  intro ts
  induction ts with
  | nil =>
      intro c t0
      simp
  | cons t ts ih =>
      intro c t0
      simp only [List.foldl_cons, List.map_cons, List.sum_cons]
      rw [ih]
      refine Prod.ext ?_ ?_ <;> simp [trial_step] <;> ring

theorem benchmark_fold (genCost sortCost : Nat → Nat → ℚ) (trials : Nat) :
    ∀ (sizes : List Nat) (c : ℚ) (acc : List ℚ),
      (sizes.foldl
        (fun acc2 n =>
          let res := (List.range trials).foldl
            (fun st t =>
              let step := trial_step st.1 (genCost n t) (sortCost n t)
              (step.1, st.2 + step.2))
            (acc2.1, 0)
          (res.1, acc2.2 ++ [res.2 / (trials : ℚ)]))
        (c, acc)).2 =
      acc ++ sizes.map
        (fun n => ((List.range trials).map fun t => sortCost n t).sum / (trials : ℚ)) := by
  intro sizes
  induction sizes with
  | nil =>
      intro c acc
      simp
  | cons n sizes ih =>
      intro c acc
      simp only [List.foldl_cons, List.map_cons]
      rw [trial_fold genCost sortCost n (List.range trials) c 0]
      rw [ih]
      simp

/-- C8: for every ordered list of sizes and positive trial count, the
benchmark produces exactly one averaged result per size, in order; each
result is the arithmetic mean over the trials of the sort timings alone: the
generation costs (incurred before `start = time.time()` is read) cancel out
of every measurement, and each trial's timing is that of the fresh input
generated for that trial. -/
theorem benchmark_results (genCost sortCost : Nat → Nat → ℚ) (sizes : List Nat)
    (trials : Nat) (_ht : 0 < trials) :
    (benchmark_quicksort genCost sortCost sizes trials).2 =
      sizes.map
        (fun n => ((List.range trials).map fun t => sortCost n t).sum / (trials : ℚ)) ∧
    (benchmark_quicksort genCost sortCost sizes trials).2.length = sizes.length := by
  have h := benchmark_fold genCost sortCost trials sizes 0 []
  constructor
  · rw [benchmark_quicksort, h, List.nil_append]
  · rw [benchmark_quicksort, h, List.nil_append, List.length_map]

/-! ### Witnesses -/

/-- Witness for C2 at `n = 3`. -/
theorem worst_case_ascending_imbalance_witness :
    generate_worst_case 3 = (List.range 3).map Int.ofNat ∧
    (∃ rest : List Int,
      generate_worst_case 3 = 0 :: rest ∧
      rest.length = 3 - 1 ∧
      (rest.filter fun x => decide (x < (0 : Int))) = [] ∧
      (rest.filter fun x => decide ((0 : Int) ≤ x)) = rest) ∧
    (∀ f ∈ nrPartitions (generate_worst_case 3), f.2.1 = []) ∧
    (nrPartitions (generate_worst_case 3)).length = 3 - 1 :=
  worst_case_ascending_imbalance 3 (by decide)

/-- Witness for C3 at `arr = [0, 1, 2]`. -/
theorem best_case_median_first_witness :
    generate_best_case [0, 1, 2] =
      ([0, 1, 2] : List Int).getD (([0, 1, 2] : List Int).length / 2) 0 ::
        (generate_best_case (([0, 1, 2] : List Int).take (([0, 1, 2] : List Int).length / 2)) ++
          generate_best_case
            (([0, 1, 2] : List Int).drop (([0, 1, 2] : List Int).length / 2 + 1))) :=
  (best_case_median_first [0, 1, 2]).2 (by decide)

/-- Witness for C5 at `p = 2`, `rest = [1, 3]`. -/
theorem partition_semantics_witness :
    quicksort_non_random [2, 1, 3] =
      quicksort_non_random ([1, 3].filter fun x => decide (x < (2 : Int))) ++
        (2 : Int) :: quicksort_non_random ([1, 3].filter fun x => decide ((2 : Int) ≤ x)) :=
  (partition_semantics 2 [1, 3] (by decide)).1

/-- Witness for C8 with two sizes and two trials. -/
theorem benchmark_results_witness :
    (benchmark_quicksort (fun _ _ => 5) (fun n t => (n : ℚ) + t) [2, 3] 2).2 =
      [2, 3].map
        (fun n => ((List.range 2).map fun t => ((n : ℚ) + t)).sum / ((2 : Nat) : ℚ)) :=
  (benchmark_results (fun _ _ => 5) (fun n t => (n : ℚ) + t) [2, 3] 2 (by decide)).1

/-- Witness for C9 at `arr = [5, 7]`, `ks = [1]`. -/
theorem quicksort_frame_witness :
    quicksort_random_post [5, 7] [1] =
      swapFirst [5, 7] (([1] : List Nat).headD 0 % ([5, 7] : List Int).length) :=
  (quicksort_frame [5, 7] [1]).2.2.1 (by decide)

/-- Witness for C10 at `p = 1`, `rest = [0]`. -/
theorem quicksort_termination_measure_witness :
    quicksort_non_random [(1 : Int), 0] =
      quicksort_non_random ([0].filter fun x => decide (x < (1 : Int))) ++
        (1 : Int) :: quicksort_non_random ([0].filter fun x => decide ((1 : Int) ≤ x)) :=
  (quicksort_termination_measure 1 [0]).2.2.2.1 (by decide)

end HandsOn6
